import Mathlib

/-!
Verification of the cng cipher-mode engine and provider-handle cache.

Shallow embedding conventions: Go byte slices become `List Nat` (each
element one byte value), Go `uint32` / Win32 ULONG values become `Nat`
(with the places where 32-bit behaviour matters made explicit), fallible
Go functions return `Except` or `Option`, and a Go panic is modelled as
`Option.none`. Backend (bcrypt) effects are passed in explicitly as
function arguments or modelled as abstract collaborators.
-/

namespace Cng

/-- Maximum value of a Win32 ULONG, i.e. math.MaxUint32 in the Go source. -/
def maxUint32 : Nat := 4294967295

/-- Embedding of `lenU32` from cng.go: clamps a slice length so it can fit
into a Win32 ULONG (32-bit unsigned) without overflowing. -/
def lenU32 (s : List Nat) : Nat :=
  if s.length > maxUint32 then maxUint32 else s.length

/-- Embedding of bcrypt.KEY_LENGTHS_STRUCT: the backend-reported key-length
constraints. All three fields are uint32 in the source, modelled as Nat. -/
structure KEY_LENGTHS_STRUCT where
  MinLength : Nat
  MaxLength : Nat
  Increment : Nat
deriving DecidableEq

/-- Embedding of the validation part of `getKeyLengths` from cng.go: once the
backend property read has succeeded and produced `lengths`, the structure is
rejected iff MinLength > MaxLength, or Increment == 0 while
MinLength != MaxLength; otherwise it is returned unchanged. -/
def getKeyLengths (lengths : KEY_LENGTHS_STRUCT) : Except String KEY_LENGTHS_STRUCT :=
  if lengths.MinLength > lengths.MaxLength ∨
      (lengths.Increment = 0 ∧ lengths.MinLength ≠ lengths.MaxLength) then
    Except.error "invalid BCRYPT_KEY_LENGTHS_STRUCT"
  else
    Except.ok lengths

/-- Embedding of `keyIsAllowed` from cng.go. In the source `bits` and the
struct fields are uint32; the subtraction `bits - MinLength` is only reached
after the guard has established MinLength ≤ bits, so Nat subtraction agrees
with the uint32 subtraction of the source. -/
def keyIsAllowed (lengths : KEY_LENGTHS_STRUCT) (bits : Nat) : Bool :=
  if bits < lengths.MinLength ∨ bits > lengths.MaxLength then
    false
  else if lengths.Increment = 0 then
    bits = lengths.MinLength
  else
    (bits - lengths.MinLength) % lengths.Increment = 0

/-- C4: `keyIsAllowed` returns true iff min ≤ bits ≤ max and, when
increment > 0, (bits − min) mod increment == 0; when increment == 0 it
returns true only for bits == min. -/
theorem keyIsAllowed_iff (lengths : KEY_LENGTHS_STRUCT) (bits : Nat) :
    keyIsAllowed lengths bits = true ↔
      lengths.MinLength ≤ bits ∧ bits ≤ lengths.MaxLength ∧
        (0 < lengths.Increment →
          (bits - lengths.MinLength) % lengths.Increment = 0) ∧
        (lengths.Increment = 0 → bits = lengths.MinLength) := by
  unfold keyIsAllowed
  split_ifs with h1 h2
  · simp only [Bool.false_eq_true, false_iff]
    rintro ⟨ha, hb, -, -⟩
    omega
  · simp only [decide_eq_true_eq]
    constructor
    · intro h
      refine ⟨?_, ?_, ?_, fun _ => h⟩
      · omega
      · omega
      · intro hi
        exact absurd h2 (by omega)
    · rintro ⟨-, -, -, hd⟩
      exact hd h2
  · have h2p : 0 < lengths.Increment := Nat.pos_of_ne_zero h2
    simp only [decide_eq_true_eq]
    constructor
    · intro h
      exact ⟨by omega, by omega, fun _ => h, fun h0 => absurd h0 h2⟩
    · rintro ⟨-, -, hc, -⟩
      exact hc h2p

/-- C4 witness: a concrete evaluation of the characterisation, at the
AES-like constraints (128, 256, 64) and candidate 192 bits. -/
theorem keyIsAllowed_iff_witness :
    keyIsAllowed ⟨128, 256, 64⟩ 192 = true :=
  (keyIsAllowed_iff ⟨128, 256, 64⟩ 192).mpr
    ⟨by decide, by decide, fun _ => by decide, fun h => by cases h⟩

/-- C5: `getKeyLengths` returns an error exactly when the structure is
malformed (MinLength > MaxLength, or Increment == 0 with
MinLength ≠ MaxLength), and every structure passing the checks is returned
unchanged with no error. -/
theorem getKeyLengths_spec (lengths : KEY_LENGTHS_STRUCT) :
    (getKeyLengths lengths = Except.error "invalid BCRYPT_KEY_LENGTHS_STRUCT" ↔
      (lengths.MaxLength < lengths.MinLength ∨
        (lengths.Increment = 0 ∧ lengths.MinLength ≠ lengths.MaxLength))) ∧
    (getKeyLengths lengths = Except.ok lengths ↔
      ¬(lengths.MaxLength < lengths.MinLength ∨
        (lengths.Increment = 0 ∧ lengths.MinLength ≠ lengths.MaxLength))) := by
  unfold getKeyLengths
  split_ifs with h
  · exact ⟨by simp [h], by simp [h]⟩
  · exact ⟨by simp [h], by simp [h]⟩

/-- C5 witness: a malformed structure (min > max) is rejected and a
well-formed one is returned unchanged. -/
theorem getKeyLengths_spec_witness :
    getKeyLengths ⟨256, 128, 64⟩ = Except.error "invalid BCRYPT_KEY_LENGTHS_STRUCT" ∧
    getKeyLengths ⟨128, 256, 64⟩ = Except.ok ⟨128, 256, 64⟩ :=
  ⟨(getKeyLengths_spec ⟨256, 128, 64⟩).1.mpr (by decide),
   (getKeyLengths_spec ⟨128, 256, 64⟩).2.mpr (by decide)⟩

/-- C9: `lenU32` returns the length when it is at most 2^32 − 1 and exactly
2^32 − 1 otherwise, so the value passed to the 32-bit backend length field
never exceeds the maximum unsigned 32-bit integer. -/
theorem lenU32_spec (s : List Nat) :
    (s.length ≤ 2 ^ 32 - 1 → lenU32 s = s.length) ∧
    (2 ^ 32 - 1 < s.length → lenU32 s = 2 ^ 32 - 1) ∧
    lenU32 s ≤ 2 ^ 32 - 1 := by
  have hmax : maxUint32 = 2 ^ 32 - 1 := by norm_num [maxUint32]
  unfold lenU32
  rw [hmax]
  split_ifs with h
  · exact ⟨fun h2 => by omega, fun _ => rfl, Nat.le_refl _⟩
  · exact ⟨fun _ => rfl, fun h2 => by omega, by omega⟩

/-- C9 witness: a concrete three-byte slice is below the clamp. -/
theorem lenU32_spec_witness : lenU32 [1, 2, 3] = 3 :=
  (lenU32_spec [1, 2, 3]).1 (by norm_num)

/-- C10: every key-length structure that passes `getKeyLengths` validation
allows its own minimum, i.e. `keyIsAllowed lengths lengths.MinLength` holds,
both in the Increment == 0 case and in the Increment > 0 case. -/
theorem keyIsAllowed_MinLength (lengths : KEY_LENGTHS_STRUCT)
    (h : getKeyLengths lengths = Except.ok lengths) :
    keyIsAllowed lengths lengths.MinLength = true := by
  unfold getKeyLengths at h
  split_ifs at h with hbad
  push_neg at hbad
  unfold keyIsAllowed
  split_ifs with h1 h2
  · exact absurd h1 (by omega)
  · simp
  · simp [Nat.sub_self]

/-- C10 witness: the AES-like constraints (128, 256, 64) pass validation and
allow 128 bits. -/
theorem keyIsAllowed_MinLength_witness :
    keyIsAllowed ⟨128, 256, 64⟩ 128 = true :=
  keyIsAllowed_MinLength ⟨128, 256, 64⟩ rfl

/-- The standard GCM nonce size in bytes, gcmStandardNonceSize. -/
def gcmStandardNonceSize : Nat := 12

/-- The standard GCM tag size in bytes, gcmTagSize. -/
def gcmTagSize : Nat := 16

/-- Maximum plaintext length accepted by seal: the platform's maximum buffer
size, a 64-bit Go slice length bound. -/
def maxBufferLen : Nat := 2 ^ 63 - 1

/-- Modelled from the spec: the native AEAD backend ("AEAD encrypt/decrypt
given key, nonce, associated data, tag buffer"), the external collaborator
invoked by the GCM code of this repository that is not under src (aes.go).
The key is implicit in the instance: `enc` and `dec` map
(nonce, aad, text) to the transformed text of the same length, and `tagOf`
computes the authentication tag over (nonce, aad, ciphertext). -/
structure BackendAEAD where
  enc : List Nat → List Nat → List Nat → List Nat
  dec : List Nat → List Nat → List Nat → List Nat
  tagOf : List Nat → List Nat → List Nat → List Nat

/-- Modelled from the spec: a GCMMode instance (the value built by the
missing aes.go), holding its AEAD-capable key handle as a backend instance
together with the configured nonce and tag lengths. -/
structure GCM where
  backend : BackendAEAD
  nonceSize : Nat
  tagSize : Nat

/-- Modelled from the spec: GCM construction (NewGCM in the missing aes.go)
fails iff both the nonce size and the tag size deviate from their standard
values simultaneously. -/
def NewGCM (b : BackendAEAD) (nonceSize tagSize : Nat) : Except String GCM :=
  if nonceSize ≠ gcmStandardNonceSize ∧ tagSize ≠ gcmTagSize then
    Except.error "cipher: GCM tag and nonce can not be non-standard at the same time"
  else
    Except.ok ⟨b, nonceSize, tagSize⟩

/-- Modelled from the spec: GCMMode.Seal (in the missing aes.go) — a nonce
of the wrong length or an oversized plaintext is a fatal precondition
violation (panic, modelled `none`); otherwise the output is
ciphertext ‖ tag as produced by the backend AEAD encrypt. -/
def GCM.Seal (g : GCM) (nonce plaintext aad : List Nat) : Option (List Nat) :=
  if nonce.length ≠ g.nonceSize then none
  else if plaintext.length > maxBufferLen then none
  else
    some (g.backend.enc nonce aad plaintext ++
      g.backend.tagOf nonce aad (g.backend.enc nonce aad plaintext))

/-- The result of GCM open: either the authenticated plaintext, or the
distinguished authentication-failure error (errOpen in the source). -/
inductive OpenResult where
  | ok (plaintext : List Nat)
  | errOpen
deriving DecidableEq

/-- Modelled from the spec: GCMMode.Open (in the missing aes.go) — splits
the trailing tagSize bytes as the tag, decrypts, and verifies
authentication; on tag mismatch or malformed (too short) input it returns
the distinguished authentication-failure error and never the
decrypted-but-unauthenticated plaintext. -/
def GCM.Open (g : GCM) (nonce ct aad : List Nat) : OpenResult :=
  if ct.length < g.tagSize then
    OpenResult.errOpen
  else if ct.drop (ct.length - g.tagSize) =
      g.backend.tagOf nonce aad (ct.take (ct.length - g.tagSize)) then
    OpenResult.ok (g.backend.dec nonce aad (ct.take (ct.length - g.tagSize)))
  else
    OpenResult.errOpen

/-- A concrete backend instance used to evaluate the models on concrete
inputs: identity encryption with a checksum tag of the standard size. -/
def testBackend : BackendAEAD where
  enc := fun _ _ p => p
  dec := fun _ _ c => c
  tagOf := fun n a c => List.replicate gcmTagSize ((n.sum + 2 * a.sum + 3 * c.sum) % 256)

/-- C8: GCM mode construction fails with an error when both the requested
nonce length and tag length deviate from their standard values (12 and 16)
simultaneously, and succeeds when at most one of the two is non-standard. -/
theorem NewGCM_spec (b : BackendAEAD) (nonceSize tagSize : Nat) :
    ((∃ e, NewGCM b nonceSize tagSize = Except.error e) ↔
      (nonceSize ≠ gcmStandardNonceSize ∧ tagSize ≠ gcmTagSize)) ∧
    (nonceSize = gcmStandardNonceSize ∨ tagSize = gcmTagSize →
      NewGCM b nonceSize tagSize = Except.ok ⟨b, nonceSize, tagSize⟩) := by
  unfold NewGCM
  split_ifs with h
  · constructor
    · exact ⟨fun _ => h, fun _ => ⟨_, rfl⟩⟩
    · intro hstd
      rcases hstd with hs | hs
      · exact absurd hs h.1
      · exact absurd hs h.2
  · constructor
    · constructor
      · rintro ⟨e, he⟩
        exact absurd he (by simp)
      · intro hc
        exact absurd hc h
    · intro _
      rfl

/-- C8 witness: both sizes non-standard is rejected, one non-standard is
accepted. -/
theorem NewGCM_spec_witness :
    (∃ e, NewGCM testBackend 11 15 = Except.error e) ∧
    NewGCM testBackend 11 16 = Except.ok ⟨testBackend, 11, 16⟩ :=
  ⟨(NewGCM_spec testBackend 11 15).1.mpr (by decide),
   (NewGCM_spec testBackend 11 16).2 (Or.inr rfl)⟩

/-- C3: sealing then opening with the same nonce and associated data returns
the original plaintext, and the sealed output has length
len(plaintext) + tagLength. The backend AEAD (an assumed-correct external
collaborator) is constrained by the hypotheses: encryption is
length-preserving, decryption inverts encryption, and tags have the
configured tag length. -/
theorem GCM_Seal_Open_roundtrip (g : GCM) (nonce pt aad : List Nat)
    (hnonce : nonce.length = g.nonceSize)
    (hpt : pt.length ≤ maxBufferLen)
    (henc : ∀ n a p, (g.backend.enc n a p).length = p.length)
    (hdec : ∀ n a p, g.backend.dec n a (g.backend.enc n a p) = p)
    (htag : ∀ n a c, (g.backend.tagOf n a c).length = g.tagSize) :
    ∃ s, g.Seal nonce pt aad = some s ∧
      s.length = pt.length + g.tagSize ∧
      g.Open nonce s aad = OpenResult.ok pt := by
  refine ⟨g.backend.enc nonce aad pt ++
      g.backend.tagOf nonce aad (g.backend.enc nonce aad pt), ?_, ?_, ?_⟩
  · unfold GCM.Seal
    rw [if_neg (by simp [hnonce]), if_neg (by omega)]
  · simp [henc, htag]
  · unfold GCM.Open
    have hc : (g.backend.enc nonce aad pt).length = pt.length := henc _ _ _
    have ht : (g.backend.tagOf nonce aad (g.backend.enc nonce aad pt)).length =
        g.tagSize := htag _ _ _
    have hlen : (g.backend.enc nonce aad pt ++
        g.backend.tagOf nonce aad (g.backend.enc nonce aad pt)).length =
        pt.length + g.tagSize := by simp [hc, ht]
    have hcut : (g.backend.enc nonce aad pt ++
        g.backend.tagOf nonce aad (g.backend.enc nonce aad pt)).length - g.tagSize =
        (g.backend.enc nonce aad pt).length := by omega
    rw [if_neg (by omega), hcut, List.take_left, List.drop_left, if_pos rfl, hdec]

/-- C3 witness: the round trip evaluated at the concrete test vector of the
repository (nonce 91c7a75452ef10db91a86cf9, plaintext 010203,
aad 050507). -/
theorem GCM_Seal_Open_roundtrip_witness :
    ∃ s, GCM.Seal ⟨testBackend, 12, 16⟩
        [0x91, 0xc7, 0xa7, 0x54, 0x52, 0xef, 0x10, 0xdb, 0x91, 0xa8, 0x6c, 0xf9]
        [1, 2, 3] [5, 5, 7] = some s ∧
      s.length = 3 + 16 ∧
      GCM.Open ⟨testBackend, 12, 16⟩
        [0x91, 0xc7, 0xa7, 0x54, 0x52, 0xef, 0x10, 0xdb, 0x91, 0xa8, 0x6c, 0xf9]
        s [5, 5, 7] = OpenResult.ok [1, 2, 3] :=
  GCM_Seal_Open_roundtrip ⟨testBackend, 12, 16⟩ _ _ _ rfl
    (by norm_num [maxBufferLen]) (fun _ _ _ => rfl) (fun _ _ _ => rfl)
    (fun _ _ _ => by simp [testBackend, gcmTagSize])

/-- C2: open either returns the authenticated plaintext or the
distinguished authentication-failure error; a returned plaintext implies
the tag verified (so unauthenticated plaintext is never released), and
whenever the input is malformed or the tag does not verify, open returns
the error. -/
theorem GCM_Open_auth (g : GCM) (nonce ct aad : List Nat) :
    (g.Open nonce ct aad = OpenResult.errOpen ∨
      ∃ p, g.Open nonce ct aad = OpenResult.ok p) ∧
    (∀ p, g.Open nonce ct aad = OpenResult.ok p →
      g.tagSize ≤ ct.length ∧
      ct.drop (ct.length - g.tagSize) =
        g.backend.tagOf nonce aad (ct.take (ct.length - g.tagSize)) ∧
      p = g.backend.dec nonce aad (ct.take (ct.length - g.tagSize))) ∧
    ((ct.length < g.tagSize ∨
        ct.drop (ct.length - g.tagSize) ≠
          g.backend.tagOf nonce aad (ct.take (ct.length - g.tagSize))) →
      g.Open nonce ct aad = OpenResult.errOpen) := by
  unfold GCM.Open
  split_ifs with h1 h2
  · exact ⟨Or.inl rfl, fun p hp => by simp at hp, fun _ => rfl⟩
  · refine ⟨Or.inr ⟨_, rfl⟩, ?_, ?_⟩
    · intro p hp
      injection hp with h
      exact ⟨by omega, h2, h.symm⟩
    · intro hbad
      rcases hbad with hb | hb
      · exact absurd hb h1
      · exact absurd h2 hb
  · exact ⟨Or.inl rfl, fun p hp => by simp at hp, fun _ => rfl⟩

/-- C2 witness: a concrete tampered input (wrong tag bytes) makes open
return the authentication error. -/
theorem GCM_Open_auth_witness :
    GCM.Open ⟨testBackend, 12, 16⟩ (List.replicate 12 1)
      (List.replicate 17 0) [] = OpenResult.errOpen :=
  (GCM_Open_auth ⟨testBackend, 12, 16⟩ (List.replicate 12 1)
    (List.replicate 17 0) []).2.2 (Or.inr (by decide))

/-- Modelled from the spec: a byte string read as a big-endian unsigned
integer (the TLS nonce as a 96-bit number). -/
def beUint (b : List Nat) : Nat :=
  b.foldl (fun acc x => acc * 256 + x) 0

/-- Modelled from the spec: GCMTLSMode (NewGCMTLS in the missing aes.go):
a GCM fixed to the standard nonce and tag sizes, plus the smallest
not-yet-consumed nonce value, held as a big-endian unsigned integer. -/
structure GCMTLS where
  backend : BackendAEAD
  minNextNonce : Nat

/-- Modelled from the spec: NewGCMTLS initialises the stored minimum
nonce value to zero. -/
def NewGCMTLS (b : BackendAEAD) : GCMTLS := ⟨b, 0⟩

/-- Modelled from the spec: GCMTLSMode.Seal (in the missing aes.go) —
before the underlying AEAD seal, the supplied nonce, read as a big-endian
unsigned integer, is compared against the stored minimum: a strictly
smaller nonce is a fatal precondition violation (panic, modelled `none`);
on success the stored minimum advances to nonce + 1. -/
def GCMTLS.Seal (g : GCMTLS) (nonce plaintext aad : List Nat) :
    Option (List Nat × GCMTLS) :=
  if beUint nonce < g.minNextNonce then none
  else
    match GCM.Seal ⟨g.backend, gcmStandardNonceSize, gcmTagSize⟩ nonce plaintext aad with
    | none => none
    | some s => some (s, ⟨g.backend, beUint nonce + 1⟩)

/-- C1: on every TLS seal the 12-byte nonce is read as a big-endian integer
and compared to the stored minimum (zero in a fresh instance): a nonce ≥
the minimum succeeds and advances the minimum to nonce + 1 — after which
the same nonce is rejected, so each exact value is usable at most once —
while a nonce strictly below the minimum aborts with a panic (`none`). -/
theorem GCMTLS_Seal_nonce_discipline (g : GCMTLS) (nonce pt aad : List Nat)
    (hlen : nonce.length = 12) (hpt : pt.length ≤ maxBufferLen) :
    (∀ b, (NewGCMTLS b).minNextNonce = 0) ∧
    (g.minNextNonce ≤ beUint nonce →
      ∃ s, g.Seal nonce pt aad = some (s, ⟨g.backend, beUint nonce + 1⟩) ∧
        GCMTLS.Seal ⟨g.backend, beUint nonce + 1⟩ nonce pt aad = none) ∧
    (beUint nonce < g.minNextNonce → g.Seal nonce pt aad = none) := by
  refine ⟨fun _ => rfl, ?_, ?_⟩
  · intro hge
    unfold GCMTLS.Seal
    rw [if_neg (by omega)]
    unfold GCM.Seal
    rw [if_neg (by simp [hlen, gcmStandardNonceSize]), if_neg (by omega)]
    exact ⟨_, rfl, by rw [if_pos (Nat.lt_succ_self (beUint nonce))]⟩
  · intro hlt
    unfold GCMTLS.Seal
    rw [if_pos hlt]

/-- C1 witness: a fresh TLS instance accepts the all-zero nonce once and
rejects its reuse. -/
theorem GCMTLS_Seal_nonce_discipline_witness :
    ∃ s, GCMTLS.Seal (NewGCMTLS testBackend) (List.replicate 12 0)
        [1, 2, 3] [5, 5, 7] =
        some (s, ⟨testBackend, beUint (List.replicate 12 0) + 1⟩) ∧
      GCMTLS.Seal ⟨testBackend, beUint (List.replicate 12 0) + 1⟩
        (List.replicate 12 0) [1, 2, 3] [5, 5, 7] = none :=
  (GCMTLS_Seal_nonce_discipline (NewGCMTLS testBackend) (List.replicate 12 0)
    [1, 2, 3] [5, 5, 7] (by simp) (by norm_num [maxBufferLen])).2.1
    (Nat.zero_le _)

/-- A provider-cache key from cng.go: (algorithm id, flags, chaining mode),
each component abstracted to Nat. -/
structure EntryKey where
  id : Nat
  flags : Nat
  mode : Nat
deriving DecidableEq

/-- A cached value: the entry the caller-supplied constructor built from a
freshly opened provider handle. It records the handle it owns together with
an abstract payload. -/
structure AlgEntry where
  handle : Nat
  payload : Nat
deriving DecidableEq

/-- Embedding of sync.Map.Load on an association list. -/
def mapLoad (cache : List (EntryKey × AlgEntry)) (k : EntryKey) : Option AlgEntry :=
  match cache.find? (fun p => p.1 == k) with
  | some p => some p.2
  | none => none

/-- Embedding of sync.Map.LoadOrStore: returns (actual value, loaded) and
the updated map; the value is stored only if the key was absent. -/
def mapLoadOrStore (cache : List (EntryKey × AlgEntry)) (k : EntryKey) (v : AlgEntry) :
    (AlgEntry × Bool) × List (EntryKey × AlgEntry) :=
  match mapLoad cache k with
  | some existing => ((existing, true), cache)
  | none => ((v, false), (k, v) :: cache)

/-- Embedding of `loadOrStoreAlg` from cng.go, with the backend effects made
explicit: `openRes` is the outcome of bcrypt.OpenAlgorithmProvider (an error
code, or the fresh handle it would produce) and `fn` is the caller-supplied
constructor (an error code, or the payload built from the handle). Returns
the result, the updated cache, and the handles closed during the call. -/
def loadOrStoreAlg (cache : List (EntryKey × AlgEntry)) (k : EntryKey)
    (openRes : Except Nat Nat) (fn : Nat → Except Nat Nat) :
    Except Nat AlgEntry × List (EntryKey × AlgEntry) × List Nat :=
  match mapLoad cache k with
  | some v => (Except.ok v, cache, [])
  | none =>
    match openRes with
    | Except.error e => (Except.error e, cache, [])
    | Except.ok h =>
      match fn h with
      | Except.error e => (Except.error e, cache, [h])
      | Except.ok p =>
        match mapLoadOrStore cache k ⟨h, p⟩ with
        | ((v, true), cache1) => (Except.ok v, cache1, [h])
        | ((v, false), cache1) => (Except.ok v, cache1, [])

/-- C6: when the backend open fails, the error is propagated, nothing is
inserted into the cache and no handle is closed (none was opened); when the
open succeeds but the constructor fails, the freshly opened handle is
closed, the constructor's error is propagated, and nothing is inserted. -/
theorem loadOrStoreAlg_error_paths (cache : List (EntryKey × AlgEntry))
    (k : EntryKey) (fn : Nat → Except Nat Nat)
    (hmiss : mapLoad cache k = none) :
    (∀ e, loadOrStoreAlg cache k (Except.error e) fn =
      (Except.error e, cache, [])) ∧
    (∀ h e, fn h = Except.error e →
      loadOrStoreAlg cache k (Except.ok h) fn =
        (Except.error e, cache, [h])) := by
  constructor
  · intro e
    simp [loadOrStoreAlg, hmiss]
  · intro h e hfn
    simp [loadOrStoreAlg, hmiss, hfn]

/-- C6 witness: concrete evaluations of both error paths on an empty
cache. -/
theorem loadOrStoreAlg_error_paths_witness :
    loadOrStoreAlg [] ⟨1, 2, 3⟩ (Except.error 5) (fun _ => Except.error 7) =
      (Except.error 5, [], []) ∧
    loadOrStoreAlg [] ⟨1, 2, 3⟩ (Except.ok 4) (fun _ => Except.error 7) =
      (Except.error 7, [], [4]) :=
  ⟨(loadOrStoreAlg_error_paths [] ⟨1, 2, 3⟩ (fun _ => Except.error 7) rfl).1 5,
   (loadOrStoreAlg_error_paths [] ⟨1, 2, 3⟩ (fun _ => Except.error 7) rfl).2 4 7 rfl⟩

/-- A concurrent caller of loadOrStoreAlg: the key it requests, whether its
backend open succeeds, and the outcome of its constructor (an error code or
the payload it builds from the opened handle). -/
structure Caller where
  key : EntryKey
  openOk : Bool
  fnRes : Except Nat Nat

/-- The phase a caller is in: not yet run; holding a freshly opened handle
wrapped in its constructed entry, just before its LoadOrStore; or finished
with a result. -/
inductive Phase where
  | start
  | pending (v : AlgEntry)
  | done (res : Except Nat AlgEntry)

/-- The shared state of a race on the provider cache: the cache itself, the
fresh-handle counter (handles 0 .. nextH−1 have been opened so far), the
handles closed so far, and each caller's phase. -/
structure RaceState where
  cache : List (EntryKey × AlgEntry)
  nextH : Nat
  closed : List Nat
  phases : List Phase

/-- The initial race state: empty cache, no handles, all callers at start. -/
def initState (cs : List Caller) : RaceState :=
  ⟨[], 0, [], cs.map fun _ => Phase.start⟩

/-- One atomic step of caller i, mirroring `loadOrStoreAlg` from cng.go
split at its two touches of the shared map. From `start`: the atomic cache
Load, followed by the caller-local backend open (fresh handles are issued
by the counter; an open failure propagates the backend error, abstracted to
code 0) and the constructor call, which closes the handle on failure. From
`pending`: the atomic LoadOrStore, after which a caller that lost the race
closes its own just-opened handle and adopts the winner's value. -/
def step (cs : List Caller) (s : RaceState) (i : Nat) : RaceState :=
  match cs[i]?, s.phases[i]? with
  | some c, some Phase.start =>
    (match mapLoad s.cache c.key with
     | some v => { s with phases := s.phases.set i (Phase.done (Except.ok v)) }
     | none =>
       if c.openOk then
         match c.fnRes with
         | Except.error e =>
           { s with nextH := s.nextH + 1,
                    closed := s.nextH :: s.closed,
                    phases := s.phases.set i (Phase.done (Except.error e)) }
         | Except.ok p =>
           { s with nextH := s.nextH + 1,
                    phases := s.phases.set i (Phase.pending ⟨s.nextH, p⟩) }
       else
         { s with phases := s.phases.set i (Phase.done (Except.error 0)) })
  | some c, some (Phase.pending v) =>
    (match mapLoadOrStore s.cache c.key v with
     | ((w, true), cache1) =>
       { s with cache := cache1,
                closed := v.handle :: s.closed,
                phases := s.phases.set i (Phase.done (Except.ok w)) }
     | ((w, false), cache1) =>
       { s with cache := cache1,
                phases := s.phases.set i (Phase.done (Except.ok w)) })
  | _, _ => s

/-- Running a race: fold the steps of an arbitrary schedule (a list of
caller indices describing one interleaving) from the initial state. -/
def run (cs : List Caller) (sched : List Nat) : RaceState :=
  sched.foldl (step cs) (initState cs)

/-- The handle owned by a phase, if any: a pending caller still owns the
handle wrapped in its constructed entry. -/
def pendingHandle : Phase → Option Nat
  | Phase.pending v => some v.handle
  | _ => none

/-- The handles currently alive: those owned by cache entries plus those
held by pending callers. -/
def liveHandles (s : RaceState) : List Nat :=
  s.cache.map (fun p => p.2.handle) ++ s.phases.filterMap pendingHandle

/-- Looking a key up fails exactly when no entry carries it. -/
theorem mapLoad_eq_none_iff (cache : List (EntryKey × AlgEntry)) (k : EntryKey) :
    mapLoad cache k = none ↔ ∀ p ∈ cache, p.1 ≠ k := by
  induction cache with
  | nil => simp [mapLoad]
  | cons q rest ih =>
    by_cases hk : q.1 = k
    · have : mapLoad (q :: rest) k = some q.2 := by
        unfold mapLoad
        rw [List.find?_cons_of_pos _ (by simp [hk])]
      simp [this, hk]
    · have : mapLoad (q :: rest) k = mapLoad rest k := by
        unfold mapLoad
        rw [List.find?_cons_of_neg _ (by simp [hk])]
      simp [this, ih, hk]

/-- Prepending an entry for one key leaves lookups of other keys alone. -/
theorem mapLoad_cons_of_ne (cache : List (EntryKey × AlgEntry))
    (k1 k : EntryKey) (v : AlgEntry) (h : k1 ≠ k) :
    mapLoad ((k1, v) :: cache) k = mapLoad cache k := by
  unfold mapLoad
  rw [List.find?_cons_of_neg _ (by simp [h])]

/-- Prepending an entry makes its own key resolve to it. -/
theorem mapLoad_cons_self (cache : List (EntryKey × AlgEntry))
    (k : EntryKey) (v : AlgEntry) :
    mapLoad ((k, v) :: cache) k = some v := by
  unfold mapLoad
  rw [List.find?_cons_of_pos _ (by simp)]

/-- A successful lookup survives the insertion of an absent key. -/
theorem mapLoad_mono (cache : List (EntryKey × AlgEntry))
    (k k1 : EntryKey) (v v1 : AlgEntry)
    (h : mapLoad cache k = some v) (h1 : mapLoad cache k1 = none) :
    mapLoad ((k1, v1) :: cache) k = some v := by
  have hne : k1 ≠ k := by
    intro he
    rw [he, h] at h1
    cases h1
  rw [mapLoad_cons_of_ne _ _ _ _ hne, h]

/-- Replacing one element of a list changes its filterMap image by
swapping the contributions of the old and new elements. -/
theorem filterMap_set_perm {α β : Type} (f : α → Option β) (l : List α)
    (i : Nat) (a b : α) (h : l[i]? = some a) :
    ((l.set i b).filterMap f ++ (f a).toList).Perm
      (l.filterMap f ++ (f b).toList) := by
  induction l generalizing i with
  | nil => cases h
  | cons x xs ih =>
    cases i with
    | zero =>
      rw [List.getElem?_cons_zero] at h
      injection h with h
      subst h
      rw [List.set_cons_zero]
      cases hfb : f b with
      | none =>
        cases hfx : f x with
        | none => simp [List.filterMap_cons, hfb, hfx]
        | some u => simp [List.filterMap_cons, hfb, hfx]
      | some w =>
        cases hfx : f x with
        | none =>
          simp only [List.filterMap_cons, hfb, hfx, Option.toList_some,
            Option.toList_none, List.append_nil, List.cons_append]
          exact (List.perm_append_singleton _ _).symm
        | some u =>
          simp only [List.filterMap_cons, hfb, hfx, Option.toList_some,
            List.cons_append]
          refine (List.Perm.cons w (List.perm_append_singleton u _)).trans ?_
          refine (List.Perm.swap u w _).trans ?_
          exact List.Perm.cons u (List.perm_append_singleton w _).symm
    | succ j =>
      rw [List.getElem?_cons_succ] at h
      rw [List.set_cons_succ]
      cases hfx : f x with
      | none => simpa [List.filterMap_cons, hfx] using ih j h
      | some u =>
        simp only [List.filterMap_cons, hfx, List.cons_append]
        exact List.Perm.cons u (ih j h)

/-- The race invariant: the cache never holds two entries for one key; a
finished caller's successful result is exactly the entry cached for its
key; and every handle ever opened is accounted for exactly once — closed,
owned by a cache entry, or held by a pending caller. -/
def Inv (cs : List Caller) (s : RaceState) : Prop :=
  (s.cache.map Prod.fst).Nodup ∧
  (∀ (i : Nat) (c : Caller) (v : AlgEntry), cs[i]? = some c →
    s.phases[i]? = some (Phase.done (Except.ok v)) →
    mapLoad s.cache c.key = some v) ∧
  (s.closed ++ liveHandles s).Perm (List.range s.nextH)

/-- In the initial state no caller holds a handle. -/
theorem pendingHandles_init (cs : List Caller) :
    (cs.map fun _ => Phase.start).filterMap pendingHandle = [] := by
  induction cs with
  | nil => rfl
  | cons c rest ih => simpa [pendingHandle] using ih

/-- The initial race state satisfies the invariant. -/
theorem inv_init (cs : List Caller) : Inv cs (initState cs) := by
  refine ⟨List.nodup_nil, ?_, ?_⟩
  · intro i c v _ hp
    simp only [initState, List.getElem?_map] at hp
    cases hcs : cs[i]? with
    | none => rw [hcs] at hp; cases hp
    | some c2 => rw [hcs] at hp; simp at hp
  · simp [initState, liveHandles, pendingHandles_init, pendingHandle]

/-- Every step of the race preserves the invariant. -/
theorem inv_step (cs : List Caller) (s : RaceState) (i : Nat)
    (hInv : Inv cs s) : Inv cs (step cs s i) := by
  obtain ⟨h1, h2, h3⟩ := hInv
  cases hcs : cs[i]? with
  | none =>
    simp only [step, hcs]
    exact ⟨h1, h2, h3⟩
  | some c =>
    cases hph : s.phases[i]? with
    | none =>
      simp only [step, hcs, hph]
      exact ⟨h1, h2, h3⟩
    | some ph =>
      have hilt : i < s.phases.length := by
        rcases List.getElem?_eq_some_iff.mp hph with ⟨hl, -⟩
        exact hl
      cases ph with
      | done r =>
        simp only [step, hcs, hph]
        exact ⟨h1, h2, h3⟩
      | start =>
        cases hml : mapLoad s.cache c.key with
        | some v =>
          simp only [step, hcs, hph, hml, liveHandles]
          refine ⟨h1, ?_, ?_⟩
          · intro j c2 w hc2 hpj
            by_cases hij : i = j
            · subst hij
              rw [List.getElem?_set_self hilt] at hpj
              simp only [Option.some.injEq, Phase.done.injEq,
                Except.ok.injEq] at hpj
              rw [hcs] at hc2
              injection hc2 with hc2
              subst hc2
              rw [hml, hpj]
            · rw [List.getElem?_set_ne hij] at hpj
              exact h2 j c2 w hc2 hpj
          · have hperm := filterMap_set_perm pendingHandle s.phases i
              Phase.start (Phase.done (Except.ok v)) hph
            simp only [pendingHandle, Option.toList_none, List.append_nil]
              at hperm
            exact (List.Perm.append_left _
              (List.Perm.append_left _ hperm)).trans h3
        | none =>
          cases hok : c.openOk with
          | false =>
            simp only [step, hcs, hph, hml, hok, Bool.false_eq_true,
              if_false, liveHandles]
            refine ⟨h1, ?_, ?_⟩
            · intro j c2 w hc2 hpj
              by_cases hij : i = j
              · subst hij
                rw [List.getElem?_set_self hilt] at hpj
                simp at hpj
              · rw [List.getElem?_set_ne hij] at hpj
                exact h2 j c2 w hc2 hpj
            · have hperm := filterMap_set_perm pendingHandle s.phases i
                Phase.start (Phase.done (Except.error 0)) hph
              simp only [pendingHandle, Option.toList_none, List.append_nil]
                at hperm
              exact (List.Perm.append_left _
                (List.Perm.append_left _ hperm)).trans h3
          | true =>
            cases hfn : c.fnRes with
            | error e =>
              simp only [step, hcs, hph, hml, hok, if_true, hfn, liveHandles]
              refine ⟨h1, ?_, ?_⟩
              · intro j c2 w hc2 hpj
                by_cases hij : i = j
                · subst hij
                  rw [List.getElem?_set_self hilt] at hpj
                  simp at hpj
                · rw [List.getElem?_set_ne hij] at hpj
                  exact h2 j c2 w hc2 hpj
              · have hperm := filterMap_set_perm pendingHandle s.phases i
                  Phase.start (Phase.done (Except.error e)) hph
                simp only [pendingHandle, Option.toList_none, List.append_nil]
                  at hperm
                rw [List.range_succ]
                exact (List.Perm.cons _ ((List.Perm.append_left _
                  (List.Perm.append_left _ hperm)).trans h3)).trans
                  (List.perm_append_singleton _ _).symm
            | ok p =>
              simp only [step, hcs, hph, hml, hok, if_true, hfn, liveHandles]
              refine ⟨h1, ?_, ?_⟩
              · intro j c2 w hc2 hpj
                by_cases hij : i = j
                · subst hij
                  rw [List.getElem?_set_self hilt] at hpj
                  simp at hpj
                · rw [List.getElem?_set_ne hij] at hpj
                  exact h2 j c2 w hc2 hpj
              · have hperm := filterMap_set_perm pendingHandle s.phases i
                  Phase.start (Phase.pending ⟨s.nextH, p⟩) hph
                simp only [pendingHandle, Option.toList_none,
                  Option.toList_some, List.append_nil] at hperm
                rw [List.range_succ]
                have hx : (s.closed ++ (s.cache.map (fun p => p.2.handle) ++
                    (s.phases.set i (Phase.pending ⟨s.nextH, p⟩)).filterMap
                      pendingHandle)).Perm
                    ((s.closed ++ (s.cache.map (fun p => p.2.handle) ++
                      s.phases.filterMap pendingHandle)) ++ [s.nextH]) := by
                  have h6 := List.Perm.append_left s.closed
                    (List.Perm.append_left (s.cache.map (fun p => p.2.handle))
                      hperm)
                  simpa [List.append_assoc] using h6
                exact hx.trans (List.Perm.append_right _ h3)
      | pending v =>
        cases hml : mapLoad s.cache c.key with
        | some w =>
          have hmls : mapLoadOrStore s.cache c.key v = ((w, true), s.cache) := by
            unfold mapLoadOrStore
            rw [hml]
          simp only [step, hcs, hph, hmls, liveHandles]
          refine ⟨h1, ?_, ?_⟩
          · intro j c2 u hc2 hpj
            by_cases hij : i = j
            · subst hij
              rw [List.getElem?_set_self hilt] at hpj
              simp only [Option.some.injEq, Phase.done.injEq,
                Except.ok.injEq] at hpj
              rw [hcs] at hc2
              injection hc2 with hc2
              subst hc2
              rw [hml, hpj]
            · rw [List.getElem?_set_ne hij] at hpj
              exact h2 j c2 u hc2 hpj
          · have hperm := filterMap_set_perm pendingHandle s.phases i
              (Phase.pending v) (Phase.done (Except.ok w)) hph
            simp only [pendingHandle, Option.toList_none, Option.toList_some,
              List.append_nil] at hperm
            have h4 : (v.handle :: (s.closed ++
                (s.cache.map (fun p => p.2.handle) ++
                  (s.phases.set i (Phase.done (Except.ok w))).filterMap
                    pendingHandle))).Perm
                (s.closed ++ (s.cache.map (fun p => p.2.handle) ++
                  ((s.phases.set i (Phase.done (Except.ok w))).filterMap
                    pendingHandle ++ [v.handle]))) := by
              have := (List.perm_append_singleton v.handle (s.closed ++
                (s.cache.map (fun p => p.2.handle) ++
                  (s.phases.set i (Phase.done (Except.ok w))).filterMap
                    pendingHandle))).symm
              simpa [List.append_assoc] using this
            exact h4.trans ((List.Perm.append_left _
              (List.Perm.append_left _ hperm)).trans h3)
        | none =>
          have hmls : mapLoadOrStore s.cache c.key v =
              ((v, false), (c.key, v) :: s.cache) := by
            unfold mapLoadOrStore
            rw [hml]
          simp only [step, hcs, hph, hmls, liveHandles]
          refine ⟨?_, ?_, ?_⟩
          · simp only [List.map_cons]
            refine List.nodup_cons.mpr ⟨?_, h1⟩
            have hni := (mapLoad_eq_none_iff s.cache c.key).mp hml
            intro hmem
            rcases List.mem_map.mp hmem with ⟨q, hq, hqk⟩
            exact hni q hq hqk
          · intro j c2 u hc2 hpj
            by_cases hij : i = j
            · subst hij
              rw [List.getElem?_set_self hilt] at hpj
              simp only [Option.some.injEq, Phase.done.injEq,
                Except.ok.injEq] at hpj
              rw [hcs] at hc2
              injection hc2 with hc2
              subst hc2
              rw [mapLoad_cons_self, hpj]
            · rw [List.getElem?_set_ne hij] at hpj
              exact mapLoad_mono _ _ _ _ _ (h2 j c2 u hc2 hpj) hml
          · have hperm := filterMap_set_perm pendingHandle s.phases i
              (Phase.pending v) (Phase.done (Except.ok v)) hph
            simp only [pendingHandle, Option.toList_none, Option.toList_some,
              List.append_nil] at hperm
            have h5 : (s.closed ++ ((v.handle ::
                s.cache.map (fun p => p.2.handle)) ++
                  (s.phases.set i (Phase.done (Except.ok v))).filterMap
                    pendingHandle)).Perm
                (v.handle :: (s.closed ++
                  (s.cache.map (fun p => p.2.handle) ++
                    (s.phases.set i (Phase.done (Except.ok v))).filterMap
                      pendingHandle))) := by
              simpa [List.append_assoc] using
                (@List.perm_middle Nat v.handle s.closed
                  (s.cache.map (fun p => p.2.handle) ++
                    (s.phases.set i (Phase.done (Except.ok v))).filterMap
                      pendingHandle))
            refine h5.trans ?_
            have h4 : (v.handle :: (s.closed ++
                (s.cache.map (fun p => p.2.handle) ++
                  (s.phases.set i (Phase.done (Except.ok v))).filterMap
                    pendingHandle))).Perm
                (s.closed ++ (s.cache.map (fun p => p.2.handle) ++
                  ((s.phases.set i (Phase.done (Except.ok v))).filterMap
                    pendingHandle ++ [v.handle]))) := by
              have := (List.perm_append_singleton v.handle (s.closed ++
                (s.cache.map (fun p => p.2.handle) ++
                  (s.phases.set i (Phase.done (Except.ok v))).filterMap
                    pendingHandle))).symm
              simpa [List.append_assoc] using this
            exact h4.trans ((List.Perm.append_left _
              (List.Perm.append_left _ hperm)).trans h3)

/-- The invariant holds after any schedule. -/
theorem inv_run (cs : List Caller) (sched : List Nat) :
    Inv cs (run cs sched) := by
  have hfold : ∀ (l : List Nat) (s : RaceState), Inv cs s →
      Inv cs (l.foldl (step cs) s) := by
    intro l
    induction l with
    | nil => intro s hs; exact hs
    | cons j rest ih =>
      intro s hs
      exact ih (step cs s j) (inv_step cs s j hs)
  exact hfold sched (initState cs) (inv_init cs)

/-- C7: in every interleaving of concurrent loadOrStoreAlg callers, the
cache never holds two entries for one key; every caller that finishes
successfully returns exactly the value cached for its key, so all callers
for the same key converge on the single winner's value (the one surviving
live handle); and every handle ever opened is accounted for — closed,
owned by a cache entry, or held by a still-running caller — so a caller
that lost the insert-if-absent race has closed its own just-opened handle
and no redundant handle is leaked. -/
theorem providerCache_race (cs : List Caller) (sched : List Nat) :
    ((run cs sched).cache.map Prod.fst).Nodup ∧
    (∀ (i : Nat) (c : Caller) (v : AlgEntry), cs[i]? = some c →
      (run cs sched).phases[i]? = some (Phase.done (Except.ok v)) →
      mapLoad (run cs sched).cache c.key = some v) ∧
    (∀ (i j : Nat) (ci cj : Caller) (v w : AlgEntry),
      cs[i]? = some ci → cs[j]? = some cj → ci.key = cj.key →
      (run cs sched).phases[i]? = some (Phase.done (Except.ok v)) →
      (run cs sched).phases[j]? = some (Phase.done (Except.ok w)) →
      v = w) ∧
    ((run cs sched).closed ++ liveHandles (run cs sched)).Perm
      (List.range (run cs sched).nextH) := by
  obtain ⟨h1, h2, h3⟩ := inv_run cs sched
  refine ⟨h1, h2, ?_, h3⟩
  intro i j ci cj v w hci hcj hkey hpi hpj
  have hv := h2 i ci v hci hpi
  have hw := h2 j cj w hcj hpj
  rw [hkey] at hv
  rw [hv] at hw
  injection hw with hw

/-- A two-caller race on the same key under the fully interleaved schedule:
both callers miss the cache and open a handle, the second caller wins the
LoadOrStore, the first loses. -/
def raceDemo : RaceState :=
  run [⟨⟨1, 2, 3⟩, true, Except.ok 5⟩, ⟨⟨1, 2, 3⟩, true, Except.ok 7⟩]
    [0, 1, 1, 0]

/-- C7 witness: in the concrete interleaved race both callers converge on
the winner's entry (handle 1), the loser's handle 0 is closed, and the
handle accounting balances. -/
theorem providerCache_race_witness :
    mapLoad raceDemo.cache ⟨1, 2, 3⟩ = some ⟨1, 7⟩ ∧
    (raceDemo.cache.map Prod.fst).Nodup ∧
    raceDemo.closed = [0] ∧
    (raceDemo.closed ++ liveHandles raceDemo).Perm
      (List.range raceDemo.nextH) := by
  refine ⟨?_, ?_, rfl, ?_⟩
  · exact (providerCache_race
      [⟨⟨1, 2, 3⟩, true, Except.ok 5⟩, ⟨⟨1, 2, 3⟩, true, Except.ok 7⟩]
      [0, 1, 1, 0]).2.1 0 ⟨⟨1, 2, 3⟩, true, Except.ok 5⟩ ⟨1, 7⟩ rfl rfl
  · exact (providerCache_race
      [⟨⟨1, 2, 3⟩, true, Except.ok 5⟩, ⟨⟨1, 2, 3⟩, true, Except.ok 7⟩]
      [0, 1, 1, 0]).1
  · exact (providerCache_race
      [⟨⟨1, 2, 3⟩, true, Except.ok 5⟩, ⟨⟨1, 2, 3⟩, true, Except.ok 7⟩]
      [0, 1, 1, 0]).2.2.2

end Cng
